import Mathlib

/-!
Verification of the trade-identity parsing and reconciliation engine of the
FuturesAutomatedFeed repository.

The engine lives in `trader_companion/mt5_comment_parser.py` (comment parser,
deal aggregator, account signature) and `trader_companion/trader_app.py`
(evaluation-row matcher, field resolver, farming slot allocation).  It is
embedded shallowly below:

* Python `str` is modelled by `List Char` (`PyStr`).  Python regular
  expression matching (anchored patterns with a lazy `(.+?)` account group)
  is modelled by an explicit scan (`lazyScan`) that tries account prefixes in
  increasing length, exactly like the backtracking engine; `.` does not match
  a newline, keywords are matched case-insensitively, which is all the
  generality the five anchored patterns of the source need.
* Python monetary floats are modelled by exact rationals `ℚ`; the source
  accumulates them by plain `+=` addition.
* Python `dict` (insertion ordered) is modelled by an insertion-ordered
  association list with `alookup` / `insertOrReplace`.
* `datetime` values carried by farming identities are modelled by the record
  `FarmDate` (day / month / year); `strptime(.., "%d%m%y")` including its
  century pivot (`00-68 -> 20xx`, `69-99 -> 19xx`) and day-of-month
  validation is `strptime_ddmmyy`, and `strftime('%d%m%y')` is `ddmmyy`.
-/

set_option maxRecDepth 8192

namespace FuturesFeed

/-- Python `str` values are modelled as lists of characters. -/
abbrev PyStr := List Char

/-- Decimal digit character for a single digit (callers pass values `< 10`);
used to model Python decimal rendering (`str(n)`, `strftime` fields). -/
def digitChar : Nat → Char
  | 0 => '0' | 1 => '1' | 2 => '2' | 3 => '3' | 4 => '4'
  | 5 => '5' | 6 => '6' | 7 => '7' | 8 => '8' | _ => '9'

/-- Fuel-driven decimal rendering of a natural number, most significant digit
first.  With fuel `≥ n` this equals Python `str(n)`. -/
def natDigitsGo : Nat → Nat → PyStr
  | 0, n => [digitChar (n % 10)]
  | fuel + 1, n =>
    if n < 10 then [digitChar n]
    else natDigitsGo fuel (n / 10) ++ [digitChar (n % 10)]

/-- Python `str(n)` for a natural number `n`. -/
def natDigits (n : Nat) : PyStr := natDigitsGo n n

/-- Numeric value of a decimal digit character. -/
def digitVal (c : Char) : Nat := c.toNat - 48

/-- Numeric value of a decimal digit string: Python `int(s)` on digit input. -/
def digitsVal (s : PyStr) : Nat := s.foldl (fun a c => 10 * a + digitVal c) 0

/-- A `datetime` as far as this engine observes it: calendar day, month and
(full, four digit) year. -/
structure FarmDate where
  day : Nat
  month : Nat
  year : Nat
deriving DecidableEq

/-- Two-digit zero-padded decimal rendering (`%d`, `%m`, `%y` of `strftime`
on in-range values). -/
def pad2 (k : Nat) : PyStr := [digitChar (k / 10 % 10), digitChar (k % 10)]

/-- `strftime('%d%m%y')` of a `FarmDate`. -/
def ddmmyy (d : FarmDate) : PyStr := pad2 d.day ++ pad2 d.month ++ pad2 (d.year % 100)

/-- Python `str.strip()` whitespace class (ASCII part: `\t\n\v\f\r` and space). -/
def pyWs (c : Char) : Bool := (9 ≤ c.toNat && c.toNat ≤ 13) || c == ' '

/-- Python `str.strip()`. -/
def pyStrip (s : PyStr) : PyStr := ((s.dropWhile pyWs).reverse.dropWhile pyWs).reverse

/-- Python `str.upper()` (ASCII). -/
def pyUpper (s : PyStr) : PyStr := s.map Char.toUpper

/-- Python `str.lower()` (ASCII). -/
def pyLower (s : PyStr) : PyStr := s.map Char.toLower

/-- Python slice `s[-k:]` for `k ≤ len(s)`. -/
def takeLast (k : Nat) (l : PyStr) : PyStr := l.drop (l.length - k)

/-- Python substring test `needle in hay`. -/
def isSubstr (needle : PyStr) : PyStr → Bool
  | [] => needle.isEmpty
  | c :: t => needle.isPrefixOf (c :: t) || isSubstr needle t

/-- Ordered-association-list lookup: Python `dict` access with string keys. -/
def alookup {α : Type} (k : PyStr) : List (PyStr × α) → Option α
  | [] => none
  | (k', v) :: t => if k' = k then some v else alookup k t

/-- `d[k] = v` on an insertion-ordered dict: replace in place, else append. -/
def insertOrReplace {α : Type} (k : PyStr) (v : α) : List (PyStr × α) → List (PyStr × α)
  | [] => [(k, v)]
  | (k', v') :: t => if k' = k then (k', v) :: t else (k', v') :: insertOrReplace k v t

/-! ## Comment parser (`mt5_comment_parser.py`, `MT5CommentParser`) -/

/-- Trading phase types (`Phase` enum of the source). -/
inductive Phase where
  | CHALLENGE | FUNDED | DOUBLE_DIP | FARMING | UNKNOWN | LEGACY
deriving DecidableEq

/-- Parsed MT5 comment data (`ParsedComment` dataclass). -/
structure ParsedComment where
  account_number : Option PyStr := none
  phase : Option Phase := none
  phase_code : Option PyStr := none
  trade_number : Option Nat := none
  farming_date : Option FarmDate := none
  raw_comment : PyStr := []
  is_valid : Bool := false
deriving DecidableEq

/-- Gregorian leap-year test, as `datetime` validates dates. -/
def isLeap (y : Nat) : Bool := y % 4 == 0 && (y % 100 != 0 || y % 400 == 0)

/-- Days in a month, as `datetime` validates dates. -/
def daysInMonth (m y : Nat) : Nat :=
  if m = 2 then (if isLeap y then 29 else 28)
  else if m = 4 ∨ m = 6 ∨ m = 9 ∨ m = 11 then 30
  else 31

/-- `datetime.strptime(ds, "%d%m%y")` on a six-character digit string:
century pivot `00-68 -> 20xx`, `69-99 -> 19xx`, with day-of-month
validation; `none` models the `ValueError` branch. -/
def strptime_ddmmyy (ds : PyStr) : Option FarmDate :=
  match ds with
  | [d1, d2, m1, m2, y1, y2] =>
    let dd := 10 * digitVal d1 + digitVal d2
    let mm := 10 * digitVal m1 + digitVal m2
    let yy := 10 * digitVal y1 + digitVal y2
    let year := if yy ≤ 68 then 2000 + yy else 1900 + yy
    if 1 ≤ mm ∧ mm ≤ 12 ∧ 1 ≤ dd ∧ dd ≤ daysInMonth mm year then
      some ⟨dd, mm, year⟩
    else none
  | _ => none

/-- Lazy-group scan: `re.match` of `^(.+?)<suffix>$` against `s`, where
`check rest` decides whether `rest` matches `<suffix>$` and returns its
captured data.  Account prefixes are tried shortest first; `.` does not
match `'\n'`, so the scan stops at a newline. -/
def lazyScan {β : Type} (check : PyStr → Option β) : PyStr → Option (PyStr × β)
  | [] => none
  | c :: rest =>
    if c = '\n' then none
    else
      match check rest with
      | some b => some ([c], b)
      | none =>
        match lazyScan check rest with
        | some (acc, b) => some (c :: acc, b)
        | none => none

/-- Does the (already upper-cased) pair of characters spell `CH`, `FD` or `DD`? -/
def isNumCode (u1 u2 : Char) : Bool :=
  (u1 == 'C' && u2 == 'H') || (u1 == 'F' && u2 == 'D') || (u1 == 'D' && u2 == 'D')

/-- Suffix matcher for `_(CH|FD|DD)(\d+)$` (case-insensitive): returns the
upper-cased phase code and the trade number `int(group(3))`. -/
def chkNumbered : PyStr → Option (PyStr × Nat)
  | '_' :: c1 :: c2 :: ds =>
    if isNumCode c1.toUpper c2.toUpper ∧ ds ≠ [] ∧ ds.all Char.isDigit then
      some ([c1.toUpper, c2.toUpper], digitsVal ds)
    else none
  | _ => none

/-- Suffix matcher for `_FA_(\d{6})$` (case-insensitive): returns the date digits. -/
def chkFaDate : PyStr → Option PyStr
  | '_' :: f :: a :: '_' :: ds =>
    if f.toUpper = 'F' ∧ a.toUpper = 'A' ∧ ds.length = 6 ∧ ds.all Char.isDigit then
      some ds
    else none
  | _ => none

/-- Suffix matcher for `_FA$` (case-insensitive). -/
def chkFaSimple : PyStr → Option Unit
  | ['_', f, a] => if f.toUpper = 'F' ∧ a.toUpper = 'A' then some () else none
  | _ => none

/-- Suffix matcher for `_UNK$` (case-insensitive). -/
def chkUnk : PyStr → Option Unit
  | ['_', u, n, k] =>
    if u.toUpper = 'U' ∧ n.toUpper = 'N' ∧ k.toUpper = 'K' then some () else none
  | _ => none

/-- Anchored matcher for the legacy pattern `^Combine(\d+)_(.*)$`
(case-insensitive; `.*` cannot cross a newline): returns the digit group
as written and its numeric value. -/
def chkLegacy (s : PyStr) : Option (PyStr × Nat) :=
  match s with
  | c1 :: c2 :: c3 :: c4 :: c5 :: c6 :: c7 :: rest =>
    if [c1, c2, c3, c4, c5, c6, c7].map Char.toUpper = "COMBINE".data then
      let ds := rest.takeWhile Char.isDigit
      match rest.dropWhile Char.isDigit with
      | '_' :: tail =>
        if ds ≠ [] ∧ tail.all (fun c => c != '\n') then some (ds, digitsVal ds) else none
      | _ => none
    else none
  | _ => none

/-- `phase_map.get(phase_code, Phase.UNKNOWN)` of `_parse_numbered_phase`. -/
def phase_map (pc : PyStr) : Phase :=
  if pc = "CH".data then .CHALLENGE
  else if pc = "FD".data then .FUNDED
  else if pc = "DD".data then .DOUBLE_DIP
  else .UNKNOWN

/-- Case-sensitive `comment.startswith("Combine")` of the fallback branch. -/
def startsWithCombine (s : PyStr) : Bool := "Combine".data.isPrefixOf s

/-- `MT5CommentParser.parse`: the five patterns in specificity order, then
the bare-account fallback.  Handlers receive the stripped comment. -/
def parse (comment : PyStr) : ParsedComment :=
  if comment = [] then { raw_comment := comment }
  else
    match lazyScan chkNumbered (pyStrip comment) with
    | some (acc, pctn) =>
      { account_number := some acc, phase := some (phase_map pctn.1),
        phase_code := some pctn.1, trade_number := some pctn.2,
        raw_comment := pyStrip comment, is_valid := true }
    | none =>
      match lazyScan chkFaDate (pyStrip comment) with
      | some (acc, ds) =>
        { account_number := some acc, phase := some .FARMING,
          phase_code := some "FA".data, farming_date := strptime_ddmmyy ds,
          raw_comment := pyStrip comment, is_valid := true }
      | none =>
        match lazyScan chkFaSimple (pyStrip comment) with
        | some (acc, _) =>
          { account_number := some acc, phase := some .FARMING,
            phase_code := some "FA".data, raw_comment := pyStrip comment, is_valid := true }
        | none =>
          match lazyScan chkUnk (pyStrip comment) with
          | some (acc, _) =>
            { account_number := some acc, phase := some .UNKNOWN,
              phase_code := some "UNK".data, raw_comment := pyStrip comment, is_valid := true }
          | none =>
            match chkLegacy (pyStrip comment) with
            | some (ds, n) =>
              { account_number := some ("Combine".data ++ ds), phase := some .LEGACY,
                phase_code := some "LEGACY".data, trade_number := some n,
                raw_comment := pyStrip comment, is_valid := true }
            | none =>
              if pyStrip comment ≠ [] ∧ ¬ startsWithCombine (pyStrip comment) then
                { account_number := some (pyStrip comment), raw_comment := comment }
              else { raw_comment := comment }

/-- `get_account_signature`: lower-cased first-4 + last-4 characters of the
stripped account; stripped strings of length at most 8 are returned whole. -/
def get_account_signature (account : PyStr) : PyStr :=
  if account = [] then []
  else
    let a := pyStrip account
    if a.length ≤ 8 then pyLower a
    else pyLower (a.take 4 ++ takeLast 4 a)

/-! ## Deal aggregator (`mt5_comment_parser.py`, `MT5DealAggregator`) -/

/-- An MT5 deal record as `add_deal` observes it.  The monetary fields are
`Option ℚ`: `none` models a missing key (or a `None` value), for which
`deal.get(field, 0) or 0` yields `0`. -/
structure Deal where
  comment : PyStr
  type : PyStr
  profit : Option ℚ
  commission : Option ℚ
  swap : Option ℚ
  fee : Option ℚ
deriving DecidableEq

/-- `deal.get(field, 0) or 0`: a missing / `None` / zero field reads as `0`. -/
def moneyVal (o : Option ℚ) : ℚ := o.getD 0

/-- The balance-operation filter of `add_deal`:
`str(deal.get('type','')).upper() in ['BALANCE','CREDIT','2','3','CHARGE','CORRECTION','BONUS']`. -/
def isBalanceOp (t : PyStr) : Bool :=
  [ "BALANCE".data, "CREDIT".data, "2".data, "3".data,
    "CHARGE".data, "CORRECTION".data, "BONUS".data ].contains (pyUpper t)

/-- Python truthiness of `parsed.account_number`. -/
def accountTruthy : Option PyStr → Bool
  | some (_ :: _) => true
  | _ => false

/-- `AggregatedTrade` accumulator dataclass. -/
structure AggregatedTrade where
  account_number : PyStr
  phase : Phase
  phase_code : PyStr
  trade_number : Option Nat := none
  farming_date : Option FarmDate := none
  total_profit : ℚ := 0
  total_commission : ℚ := 0
  total_swap : ℚ := 0
  total_fee : ℚ := 0
  deal_count : Nat := 0
  deals : List Deal := []
deriving DecidableEq

/-- `trade_suffix = str(self.trade_number) if self.trade_number else ""` of
`get_key` (truthiness: a trade number of `0` renders as the empty string). -/
def trade_suffix : Option Nat → PyStr
  | some n => if n ≠ 0 then natDigits n else []
  | none => []

/-- `date_suffix = f"_{self.farming_date.strftime('%d%m%y')}" if self.farming_date else ""`
of `get_key`. -/
def date_suffix : Option FarmDate → PyStr
  | some d => '_' :: ddmmyy d
  | none => []

/-- `AggregatedTrade.get_key`: `f"{account}_{phase_code}{trade_suffix}{date_suffix}"`. -/
def AggregatedTrade.get_key (a : AggregatedTrade) : PyStr :=
  a.account_number ++ '_' :: (a.phase_code ++ trade_suffix a.trade_number
    ++ date_suffix a.farming_date)

/-- `MT5DealAggregator._build_key`: `"_".join(parts)` over account, phase
code, `str(trade_number)` when present (`is not None`, so `0` is kept), and
the `%d%m%y` date when present. -/
def build_key (p : ParsedComment) : PyStr :=
  (p.account_number.getD []) ++ '_' :: ((p.phase_code.getD [])
    ++ (match p.trade_number with | some n => '_' :: natDigits n | none => [])
    ++ (match p.farming_date with | some d => '_' :: ddmmyy d | none => []))

/-- The mutable state of one `MT5DealAggregator` run (fresh per
`process_deals` call, which begins with `reset()`). -/
structure AggState where
  aggregations : List (PyStr × AggregatedTrade) := []
  unmatched_deals : List Deal := []
  parse_log : List PyStr := []
deriving DecidableEq

/-- The log line `f"⚠️ Unmatched: {comment or '(empty)'}"`. -/
def unmatchedLine (comment : PyStr) : PyStr :=
  "⚠️ Unmatched: ".data ++ (if comment = [] then "(empty)".data else comment)

/-- The fresh accumulator created on a key's first deal. -/
def mkBase (p : ParsedComment) : AggregatedTrade :=
  { account_number := p.account_number.getD []
    phase := (p.phase.getD .UNKNOWN)
    phase_code := p.phase_code.getD []
    trade_number := p.trade_number
    farming_date := p.farming_date }

/-- Fold one deal's monetary fields into an accumulator (`+=` lines of `add_deal`). -/
def addContrib (a : AggregatedTrade) (d : Deal) : AggregatedTrade :=
  { a with
    total_profit := a.total_profit + moneyVal d.profit
    total_commission := a.total_commission + moneyVal d.commission
    total_swap := a.total_swap + moneyVal d.swap
    total_fee := a.total_fee + moneyVal d.fee
    deal_count := a.deal_count + 1
    deals := a.deals ++ [d] }

/-- `MT5DealAggregator.add_deal`: skip balance operations, parse the comment,
route invalid or account-less parses to `unmatched_deals` with a log line,
otherwise fold the deal into the aggregation keyed by `_build_key`.
(The `phase.getD`/`getD []` defaults in `mkBase` are unreachable: a valid
parse always carries an account, a phase and a phase code.) -/
def add_deal (st : AggState) (deal : Deal) : AggState :=
  if isBalanceOp deal.type then st
  else if ¬ (parse deal.comment).is_valid ∨ ¬ accountTruthy (parse deal.comment).account_number then
    { st with
      unmatched_deals := st.unmatched_deals ++ [deal]
      parse_log := st.parse_log ++ [unmatchedLine deal.comment] }
  else
    { st with
      aggregations :=
        insertOrReplace (build_key (parse deal.comment))
          (addContrib
            ((alookup (build_key (parse deal.comment)) st.aggregations).getD
              (mkBase (parse deal.comment)))
            deal)
          st.aggregations }

/-- `MT5DealAggregator.process_deals`: reset, then fold `add_deal` over the list. -/
def process_deals (deals : List Deal) : AggState :=
  deals.foldl add_deal {}

/-! ## Signature matcher and field resolver (`trader_app.py`) -/

/-- Ledger account slot role: the `'challenge'` / `'funded'` tags attached to
`eval_lookup` entries. -/
inductive Role where
  | challenge | funded
deriving DecidableEq

/-- A ledger cell value as the farming-slot scan observes it. -/
inductive CellValue where
  | vNone
  | vStr (s : PyStr)
  | vNum (q : ℚ)
deriving DecidableEq

/-- `existing_value is None or existing_value == '' or existing_value == 0`. -/
def isEmptyCell : CellValue → Bool
  | .vNone => true
  | .vStr s => s = ([] : PyStr)
  | .vNum q => q = 0

/-- An evaluation-ledger row: field name to cell value (`dict.get`, absent
fields read as `None`). -/
abbrev EvalRow := PyStr → CellValue

/-- The field name `f"Hedge Day {k}"`. -/
def hedgeDayName (k : Nat) : PyStr := "Hedge Day ".data ++ natDigits k

/-- `evaluations[eval_idx] if eval_idx < len(evaluations) else {}`. -/
def rowAt (evaluations : List EvalRow) (eval_idx : Nat) : EvalRow :=
  if eval_idx < evaluations.length then evaluations.getD eval_idx (fun _ => .vNone)
  else (fun _ => .vNone)

/-- The `for day_num in range(1, 35)` scan of `_calculate_farming_day`,
with `fuel` slots left to inspect starting at day `k`; exhausting the loop
returns `34`. -/
def firstEmptyGo (ev : EvalRow) : Nat → Nat → Nat
  | _, 0 => 34
  | k, fuel + 1 => if isEmptyCell (ev (hedgeDayName k)) then k else firstEmptyGo ev (k + 1) fuel

/-- `_calculate_farming_day`: given a (truthy) farming date, return the first
day slot among `Hedge Day 1 .. Hedge Day 34` of the resolved row whose value
is `None`, `''` or `0`; `34` when all are occupied.  The date argument is the
already parsed `datetime` carried by the rollup (the source re-parses the
rollup's own ISO serialization, which round-trips); a missing date returns
`None`. -/
def calculate_farming_day (farming_date : Option FarmDate)
    (evaluations : List EvalRow) (eval_idx : Nat) : Option Nat :=
  match farming_date with
  | none => none
  | some _ => some (firstEmptyGo (rowAt evaluations eval_idx) 1 34)

/-- The field name `f"Hedge Result {n}"`. -/
def hedgeResultName (n : Nat) : PyStr := "Hedge Result ".data ++ natDigits n

/-- The field name `f"Hedge Result {n}.1"`. -/
def hedgeResultDot1Name (n : Nat) : PyStr := hedgeResultName n ++ ".1".data

/-- `_get_field_name_for_phase`: phase/ordinal to ledger field, `None` when
the combination is not mappable. -/
def get_field_name_for_phase (phase_code : PyStr) (trade_number : Option Nat)
    (farming_date : Option FarmDate) (evaluations : List EvalRow) (eval_idx : Nat) :
    Option PyStr :=
  if phase_code = "CH".data then
    match trade_number with
    | some n => if n ≠ 0 ∧ 1 ≤ n ∧ n ≤ 5 then some (hedgeResultName n) else none
    | none => none
  else if phase_code = "FD".data then
    match trade_number with
    | some n =>
      if n = 0 then some (hedgeResultDot1Name 1)
      else if 1 ≤ n ∧ n ≤ 4 then some (hedgeResultDot1Name (n + 1))
      else if n = 5 then some (hedgeResultName 6)
      else if n = 6 then some (hedgeResultName 7)
      else none
    | none => none
  else if phase_code = "DD".data then
    match trade_number with
    | some n =>
      if n ≠ 0 ∧ 1 ≤ n ∧ n ≤ 4 then
        if n ≤ 2 then some (hedgeResultDot1Name (n + 3)) else some (hedgeResultName (n + 3))
      else none
    | none => none
  else if phase_code = "FA".data then
    match farming_date with
    | some d =>
      match calculate_farming_day (some d) evaluations eval_idx with
      | some day => if day ≠ 0 ∧ 1 ≤ day ∧ day ≤ 34 then some (hedgeDayName day) else none
      | none => none
    | none =>
      match trade_number with
      | some n => if n ≠ 0 ∧ 1 ≤ n ∧ n ≤ 34 then some (hedgeDayName n) else none
      | none => none
  else none

/-- `_find_evaluation_match`: exact lookup, then trailing 12/10/8 suffixes,
then the first lookup entry related by substring containment, else `[]`. -/
def find_evaluation_match (account_number : PyStr)
    (eval_lookup : List (PyStr × List (Nat × Role))) : List (Nat × Role) :=
  match alookup account_number eval_lookup with
  | some ms => ms
  | none =>
    match (if 12 ≤ account_number.length
           then alookup (takeLast 12 account_number) eval_lookup else none) with
    | some ms => ms
    | none =>
      match (if 10 ≤ account_number.length
             then alookup (takeLast 10 account_number) eval_lookup else none) with
      | some ms => ms
      | none =>
        match (if 8 ≤ account_number.length
               then alookup (takeLast 8 account_number) eval_lookup else none) with
        | some ms => ms
        | none =>
          match eval_lookup.find?
              (fun e => isSubstr account_number e.1 || isSubstr e.1 account_number) with
          | some e => e.2
          | none => []

/-- The role filter of the update loop (`trader_app.py` lines 676-690): a
candidate is skipped when `phase_code == 'CH'` and its role is not
`challenge`, or when `phase_code in ['FD','DD','FA']` and its role is not
`funded`. -/
def roleCompatible (phase_code : PyStr) (role : Role) : Bool :=
  ¬ (phase_code = "CH".data ∧ role ≠ .challenge)
  ∧ ¬ ((phase_code = "FD".data ∨ phase_code = "DD".data ∨ phase_code = "FA".data)
        ∧ role ≠ .funded)

/-- The first candidate the update loop actually uses (it `break`s after the
first role-compatible match). -/
def select_evaluation_update (phase_code : PyStr) (candidates : List (Nat × Role)) :
    Option (Nat × Role) :=
  candidates.find? (fun m => roleCompatible phase_code m.2)

/-! ## Derived views of the aggregator used by the statements -/

/-- Outcome of `add_deal` on one deal: `none` when the deal is skipped as a
balance operation or routed to `unmatched_deals`, `some key` when it is
folded into the aggregation under `key` (this is the value `add_deal`
returns in the source). -/
def dealKey (d : Deal) : Option PyStr :=
  if isBalanceOp d.type then none
  else if ¬ (parse d.comment).is_valid ∨ ¬ accountTruthy (parse d.comment).account_number then none
  else some (build_key (parse d.comment))

/-- Is the deal routed to `unmatched_deals` (not a balance operation, and
its comment parse is invalid or account-less)? -/
def isUnmatchedDeal (d : Deal) : Bool :=
  !isBalanceOp d.type
    && (!(parse d.comment).is_valid || !accountTruthy (parse d.comment).account_number)

/-- Fold the deals of one key on top of an optional existing accumulator,
creating the accumulator from the first deal's parse when absent: the shape
of `alookup key` after a run, see `alookup_foldl_add_deal`. -/
def contribFold (start : Option AggregatedTrade) (ds : List Deal) : Option AggregatedTrade :=
  match start, ds with
  | some a, _ => some (ds.foldl addContrib a)
  | none, [] => none
  | none, d :: rest => some (rest.foldl addContrib (addContrib (mkBase (parse d.comment)) d))

/-- Sum of one monetary field over a deal list. -/
def moneySum (f : Deal → Option ℚ) (ds : List Deal) : ℚ := (ds.map (fun d => moneyVal (f d))).sum

/-! ## Claim-language definitions (for refinement-style comparisons) -/

/-- The signature rule in the words of the specification, applied to a given
string: lower-cased first-4 + last-4 characters; strings of length at most 8
are lower-cased whole.  (`C8` compares `get_account_signature` to this rule
applied to the stripped account.) -/
def claimSignature (t : PyStr) : PyStr :=
  if t.length ≤ 8 then pyLower t else pyLower (t.take 4 ++ takeLast 4 t)

/-- The farming-slot rule in the words of the specification: the 1-based
index of the first of `Hedge Day 1 .. Hedge Day 34` whose value is empty,
null or zero; `34` when all 34 are occupied. -/
def claimSlot (row : EvalRow) : Nat :=
  ((List.range' 1 34).find? (fun k => isEmptyCell (row (hedgeDayName k)))).getD 34

/-- The phase/ordinal to target-field mapping table in the words of the
specification (`C1`): Challenge `1-5 -> Hedge Result n`; Funded
`0 -> Hedge Result 1.1`, `1-4 -> Hedge Result (n+1).1`,
`5 -> Hedge Result 6`, `6 -> Hedge Result 7`; DoubleDip
`1-2 -> Hedge Result (n+3).1`, `3-4 -> Hedge Result (n+3)`; Farming with a
date -> `Hedge Day slot` (slot by `claimSlot`), without a date but with
ordinal `1-34 -> Hedge Day n`; everything else -> `None`. -/
def claimFieldTable (phase_code : PyStr) (trade_number : Option Nat)
    (farming_date : Option FarmDate) (evaluations : List EvalRow) (eval_idx : Nat) :
    Option PyStr :=
  if phase_code = "CH".data then
    match trade_number with
    | some n => if 1 ≤ n ∧ n ≤ 5 then some (hedgeResultName n) else none
    | none => none
  else if phase_code = "FD".data then
    match trade_number with
    | some n =>
      if n = 0 then some (hedgeResultDot1Name 1)
      else if 1 ≤ n ∧ n ≤ 4 then some (hedgeResultDot1Name (n + 1))
      else if n = 5 then some (hedgeResultName 6)
      else if n = 6 then some (hedgeResultName 7)
      else none
    | none => none
  else if phase_code = "DD".data then
    match trade_number with
    | some n =>
      if 1 ≤ n ∧ n ≤ 2 then some (hedgeResultDot1Name (n + 3))
      else if 3 ≤ n ∧ n ≤ 4 then some (hedgeResultName (n + 3))
      else none
    | none => none
  else if phase_code = "FA".data then
    match farming_date with
    | some _ => some (hedgeDayName (claimSlot (rowAt evaluations eval_idx)))
    | none =>
      match trade_number with
      | some n => if 1 ≤ n ∧ n ≤ 34 then some (hedgeDayName n) else none
      | none => none
  else none

/-- Ordinal as it is observable through `get_key` (`C3` amended): a trade
number of `0` is rendered like an absent one. -/
def normTn : Option Nat → Option Nat
  | some 0 => none
  | x => x

/-- The six canonical phase codes ever stored in a `phase_code` field. -/
def phaseCodes : List PyStr :=
  ["CH".data, "FD".data, "DD".data, "FA".data, "UNK".data, "LEGACY".data]

/-- A canonical phase code. -/
def pcValid (pc : PyStr) : Prop := pc ∈ phaseCodes

/-- Dates in the range `strptime("%d%m%y")` can produce: two-digit day and
month fields and a year inside the 1969-2068 century-pivot window. -/
def dateOk : Option FarmDate → Prop
  | none => True
  | some d => d.day < 100 ∧ d.month < 100 ∧ 1969 ≤ d.year ∧ d.year ≤ 2068

/-! # Theorems -/

/-! ## Farming slot allocation -/

theorem firstEmptyGo_eq_find (ev : EvalRow) :
    ∀ (f k : Nat),
      firstEmptyGo ev k f
        = ((List.range' k f).find? (fun j => isEmptyCell (ev (hedgeDayName j)))).getD 34 := by
  intro f
  induction f with
  | zero => intro k; simp [firstEmptyGo]
  | succ n ih =>
    intro k
    rw [List.range'_succ]
    by_cases h : isEmptyCell (ev (hedgeDayName k))
    · simp [firstEmptyGo, List.find?_cons, h]
    · simp only [firstEmptyGo, List.find?_cons]
      simp only [h, if_false]
      rw [ih (k + 1)]
      simp [h]

theorem claimSlot_bounds (row : EvalRow) : 1 ≤ claimSlot row ∧ claimSlot row ≤ 34 := by
  unfold claimSlot
  cases h : (List.range' 1 34).find? (fun j => isEmptyCell (row (hedgeDayName j))) with
  | none => simp
  | some j =>
    have hm := List.mem_of_find?_eq_some h
    rw [List.mem_range'_1] at hm
    simp only [Option.getD_some]
    omega

theorem calculate_farming_day_some (evaluations : List EvalRow) (eval_idx : Nat)
    (d : FarmDate) :
    calculate_farming_day (some d) evaluations eval_idx
      = some (claimSlot (rowAt evaluations eval_idx)) := by
  simp only [calculate_farming_day]
  rw [firstEmptyGo_eq_find]
  rfl

/-- C2: for a farming rollup carrying a date, resolved against a ledger row,
the assigned slot is the 1-based index of the first of the row's
`Hedge Day 1 .. Hedge Day 34` fields that is empty, null or zero (34 when
all are occupied), and the slot is a function of the row state only: any two
dates yield the same slot. -/
theorem C2_farming_slot :
    ∀ (evaluations : List EvalRow) (eval_idx : Nat) (d : FarmDate),
      calculate_farming_day (some d) evaluations eval_idx
        = some (claimSlot (rowAt evaluations eval_idx))
      ∧ ∀ d' : FarmDate,
          calculate_farming_day (some d) evaluations eval_idx
            = calculate_farming_day (some d') evaluations eval_idx := by
  intro evals idx d
  exact ⟨calculate_farming_day_some evals idx d, fun d' => rfl⟩

/-- C1: the field resolver realizes exactly the specification's mapping
table (`claimFieldTable`): Challenge `1-5 -> Hedge Result n`; Funded
`0 -> Hedge Result 1.1`, `1-4 -> Hedge Result (n+1).1`, `5 -> Hedge Result 6`,
`6 -> Hedge Result 7`; DoubleDip `1-2 -> Hedge Result (n+3).1`,
`3-4 -> Hedge Result (n+3)`; Farming by slot / ordinal; and every
phase/ordinal combination outside the table yields `none` (the resolver is a
total function, so no exception path exists). -/
theorem C1_field_resolver_table :
    ∀ (phase_code : PyStr) (trade_number : Option Nat) (farming_date : Option FarmDate)
      (evaluations : List EvalRow) (eval_idx : Nat),
      get_field_name_for_phase phase_code trade_number farming_date evaluations eval_idx
        = claimFieldTable phase_code trade_number farming_date evaluations eval_idx := by
  intro pc tn fd evals idx
  unfold get_field_name_for_phase claimFieldTable
  split_ifs with h1 h2 h3 h4
  · -- CH
    rcases tn with _ | n
    · rfl
    · dsimp only
      split_ifs <;> first | rfl | omega
  · -- FD
    rcases tn with _ | n
    · rfl
    · rfl
  · -- DD
    rcases tn with _ | n
    · rfl
    · dsimp only
      split_ifs <;> first | rfl | omega
  · -- FA
    rcases fd with _ | d
    · rcases tn with _ | n
      · rfl
      · dsimp only
        split_ifs <;> first | rfl | omega
    · dsimp only
      rw [calculate_farming_day_some]
      dsimp only
      have hb := claimSlot_bounds (rowAt evals idx)
      rw [if_pos (show claimSlot (rowAt evals idx) ≠ 0 ∧ 1 ≤ claimSlot (rowAt evals idx)
            ∧ claimSlot (rowAt evals idx) ≤ 34 by omega)]
  · rfl

/-! ## Role compatibility of resolved candidates -/

/-- C5: a candidate the reconciliation loop actually uses is always
role-compatible with the phase being resolved: for a Challenge-phase
identity it has the Challenge role, for Funded / DoubleDip / Farming phases
it has the Funded role, over every ledger lookup and account. -/
theorem C5_role_compatibility (eval_lookup : List (PyStr × List (Nat × Role)))
    (account_number phase_code : PyStr) (i : Nat) (r : Role)
    (h : select_evaluation_update phase_code
          (find_evaluation_match account_number eval_lookup) = some (i, r)) :
    (phase_code = "CH".data → r = .challenge)
    ∧ (phase_code = "FD".data ∨ phase_code = "DD".data ∨ phase_code = "FA".data →
        r = .funded) := by
  have hp := List.find?_some h
  simp only [roleCompatible, decide_eq_true_eq] at hp
  constructor
  · intro hc
    by_contra hr
    exact hp.1 ⟨hc, hr⟩
  · intro hc
    by_contra hr
    exact hp.2 ⟨hc, hr⟩

theorem C5_role_compatibility_witness :
    select_evaluation_update "FD".data
        (find_evaluation_match "ACC".data [("ACC".data, [(0, Role.funded)])])
      = some (0, Role.funded)
    ∧ Role.funded = Role.funded := by
  refine ⟨by decide, ?_⟩
  exact (C5_role_compatibility [("ACC".data, [(0, .funded)])] "ACC".data "FD".data 0
    .funded (by decide)).2 (Or.inl rfl)

/-! ## Account signature -/

theorem C8_signature_counterexample :
    (" ABC ".data : PyStr).length ≤ 8
    ∧ get_account_signature " ABC ".data = "abc".data
    ∧ get_account_signature " ABC ".data ≠ pyLower " ABC ".data := by
  decide

/-- C8 (amended): the signature first strips surrounding whitespace, then
returns the lower-cased whole when the stripped account has length at most 8
and the lower-cased first-4 + last-4 characters otherwise; the three
specification examples hold. -/
theorem C8_signature_amended :
    (∀ s : PyStr, get_account_signature s = claimSignature (pyStrip s))
    ∧ get_account_signature "MFFUEVSTP326057008".data = "mffu7008".data
    ∧ get_account_signature "MFFU7008".data = "mffu7008".data
    ∧ get_account_signature "ABC".data = "abc".data := by
  refine ⟨fun s => ?_, by decide, by decide, by decide⟩
  by_cases h : s = []
  · subst h; decide
  · simp [get_account_signature, claimSignature, h]

/-! ## Association-list and aggregator-step lemmas -/

theorem alookup_insertOrReplace_self {α : Type} (k : PyStr) (v : α) :
    ∀ l : List (PyStr × α), alookup k (insertOrReplace k v l) = some v := by
  intro l
  induction l with
  | nil => simp [insertOrReplace, alookup]
  | cons e t ih =>
    by_cases h : e.1 = k
    · simp [insertOrReplace, alookup, h]
    · simp [insertOrReplace, alookup, h, ih]

theorem alookup_insertOrReplace_ne {α : Type} {k k' : PyStr} (v : α) (h : k' ≠ k) :
    ∀ l : List (PyStr × α), alookup k (insertOrReplace k' v l) = alookup k l := by
  intro l
  induction l with
  | nil => simp [insertOrReplace, alookup, h]
  | cons e t ih =>
    by_cases he : e.1 = k'
    · simp [insertOrReplace, alookup, he, h]
    · by_cases hk : e.1 = k
      · simp [insertOrReplace, alookup, he, hk, Ne.symm h]
      · simp [insertOrReplace, alookup, he, hk, ih]

theorem add_deal_skipped_aggregations {st : AggState} {d : Deal}
    (h : dealKey d = none) : (add_deal st d).aggregations = st.aggregations := by
  by_cases hb : isBalanceOp d.type
  · unfold add_deal
    rw [if_pos hb]
  · by_cases hv : ¬ (parse d.comment).is_valid = true
      ∨ ¬ accountTruthy (parse d.comment).account_number = true
    · unfold add_deal
      rw [if_neg hb, if_pos hv]
    · exfalso
      unfold dealKey at h
      rw [if_neg hb, if_neg hv] at h
      exact Option.noConfusion h

theorem add_deal_matched_aggregations {st : AggState} {d : Deal} {k : PyStr}
    (h : dealKey d = some k) :
    (add_deal st d).aggregations
      = insertOrReplace k
          (addContrib ((alookup k st.aggregations).getD (mkBase (parse d.comment))) d)
          st.aggregations := by
  by_cases hb : isBalanceOp d.type
  · exfalso
    unfold dealKey at h
    rw [if_pos hb] at h
    exact Option.noConfusion h
  · by_cases hv : ¬ (parse d.comment).is_valid = true
      ∨ ¬ accountTruthy (parse d.comment).account_number = true
    · exfalso
      unfold dealKey at h
      rw [if_neg hb, if_pos hv] at h
      exact Option.noConfusion h
    · have hk : build_key (parse d.comment) = k := by
        unfold dealKey at h
        rw [if_neg hb, if_neg hv] at h
        exact Option.some.inj h
      subst hk
      unfold add_deal
      rw [if_neg hb, if_neg hv]

theorem add_deal_log (st : AggState) (d : Deal) :
    (add_deal st d).parse_log
      = st.parse_log ++ (if isUnmatchedDeal d then [unmatchedLine d.comment] else []) := by
  by_cases hb : isBalanceOp d.type
  · have hu : isUnmatchedDeal d = false := by simp [isUnmatchedDeal, hb]
    unfold add_deal
    rw [if_pos hb, hu]
    simp
  · by_cases hv : ¬ (parse d.comment).is_valid = true
      ∨ ¬ accountTruthy (parse d.comment).account_number = true
    · have hu : isUnmatchedDeal d = true := by
        rcases hv with hv | hv <;> simp [isUnmatchedDeal, hb, hv]
      unfold add_deal
      rw [if_neg hb, if_pos hv, hu]
      simp
    · have hu : isUnmatchedDeal d = false := by
        push_neg at hv
        simp [isUnmatchedDeal, hb, hv.1, hv.2]
      unfold add_deal
      rw [if_neg hb, if_neg hv, hu]
      simp

theorem foldl_add_deal_log (l : List Deal) :
    ∀ st : AggState,
      (List.foldl add_deal st l).parse_log
        = st.parse_log ++ (l.filter isUnmatchedDeal).map (fun d => unmatchedLine d.comment) := by
  induction l with
  | nil => intro st; simp
  | cons d t ih =>
    intro st
    rw [List.foldl_cons, ih, add_deal_log]
    by_cases h : isUnmatchedDeal d
    · simp [List.filter_cons, h]
    · simp [List.filter_cons, h]

/-! ## Parse log contents -/

theorem C6_parse_log_counterexample :
    (process_deals [⟨"BALANCE".data, "BALANCE".data, some 10000, none, none, none⟩]).parse_log.length
      ≠ [(⟨"BALANCE".data, "BALANCE".data, some 10000, none, none, none⟩ : Deal)].length := by
  decide

/-- C6 (amended): the aggregator's human-readable log has exactly one line
per unmatched deal — the line `"⚠️ Unmatched: <comment>"` — while deals that
are aggregated or skipped as balance operations produce no log line, so the
log's length equals the number of unmatched deals, not the number of input
deals. -/
theorem C6_parse_log_amended :
    ∀ deals : List Deal,
      (process_deals deals).parse_log
        = (deals.filter isUnmatchedDeal).map (fun d => unmatchedLine d.comment)
      ∧ (process_deals deals).parse_log.length = (deals.filter isUnmatchedDeal).length := by
  intro l
  have h := foldl_add_deal_log l {}
  constructor
  · simpa [process_deals] using h
  · have h2 : (process_deals l).parse_log
        = (l.filter isUnmatchedDeal).map (fun d => unmatchedLine d.comment) := by
      simpa [process_deals] using h
    rw [h2, List.length_map]

/-! ## Missing monetary fields -/

theorem C10_missing_fields_counterexample :
    (process_deals [⟨"ACC_CH1".data, "SELL".data, none, none, none, none⟩]).unmatched_deals = []
    ∧ (alookup "ACC_CH_1".data
        (process_deals [⟨"ACC_CH1".data, "SELL".data, none, none, none, none⟩]).aggregations).map
        (fun a => (a.total_profit, a.total_commission, a.total_swap, a.total_fee, a.deal_count))
      = some (0, 0, 0, 0, 1) := by
  constructor
  · decide
  · rw [show alookup "ACC_CH_1".data
        (process_deals [(⟨"ACC_CH1".data, "SELL".data, none, none, none, none⟩ : Deal)]).aggregations
        = some (addContrib (mkBase (parse "ACC_CH1".data))
            ⟨"ACC_CH1".data, "SELL".data, none, none, none, none⟩) from rfl]
    simp [addContrib, mkBase, moneyVal]

/-- C10 (amended): a deal whose monetary fields (profit, commission, swap,
fee) are missing is not rejected and no error is raised: `add_deal` reads
each missing field as `0`, leaves all four running totals unchanged and
still counts the deal into its aggregation. -/
theorem C10_missing_fields_amended :
    ∀ (st : AggState) (d : Deal) (k : PyStr),
      dealKey d = some k →
      d.profit = none → d.commission = none → d.swap = none → d.fee = none →
      (alookup k (add_deal st d).aggregations).map
          (fun a => (a.total_profit, a.total_commission, a.total_swap, a.total_fee, a.deal_count))
        = some (match alookup k st.aggregations with
            | some a => (a.total_profit, a.total_commission, a.total_swap, a.total_fee,
                a.deal_count + 1)
            | none => (0, 0, 0, 0, 1)) := by
  intro st d k hk hp hc hs hf
  rw [add_deal_matched_aggregations hk, alookup_insertOrReplace_self]
  cases hl : alookup k st.aggregations with
  | none => simp [hl, addContrib, mkBase, moneyVal, hp, hc, hs, hf]
  | some a => simp [hl, addContrib, moneyVal, hp, hc, hs, hf]

theorem C10_missing_fields_witness :
    (alookup "ACC_CH_1".data
        (add_deal {} ⟨"ACC_CH1".data, "SELL".data, none, none, none, none⟩).aggregations).map
        (fun a => (a.total_profit, a.total_commission, a.total_swap, a.total_fee, a.deal_count))
      = some (0, 0, 0, 0, 1) := by
  have h := C10_missing_fields_amended {} ⟨"ACC_CH1".data, "SELL".data, none, none, none, none⟩
    "ACC_CH_1".data (by decide) rfl rfl rfl rfl
  simpa [alookup] using h

/-! ## Parse result invariants -/

theorem C9_parse_invariant_counterexample :
    ("CombineX".data : PyStr) ≠ []
    ∧ (parse "CombineX".data).account_number = none
    ∧ (parse "CombineX".data).is_valid = false := by
  decide

/-- C9 (amended): `parse` is a total function whose result satisfies:
`is_valid = true` implies both the account and the phase are present; the
empty comment yields the all-`none` record; and a non-empty comment matched
by none of the five patterns yields `account_number = some (stripped
comment)` with `is_valid = false` — except that when the stripped comment is
empty or starts with `"Combine"` (case-sensitively), the account is also
left `none`, so such comments are indistinguishable from the empty comment
apart from `raw_comment`. -/
theorem C9_parse_invariant_amended :
    (∀ c : PyStr, (parse c).is_valid = true →
        (parse c).account_number.isSome = true ∧ (parse c).phase.isSome = true)
    ∧ parse [] = { raw_comment := [] }
    ∧ (∀ c : PyStr,
        lazyScan chkNumbered (pyStrip c) = none →
        lazyScan chkFaDate (pyStrip c) = none →
        lazyScan chkFaSimple (pyStrip c) = none →
        lazyScan chkUnk (pyStrip c) = none →
        chkLegacy (pyStrip c) = none →
        pyStrip c ≠ [] →
        startsWithCombine (pyStrip c) = false →
        parse c = { account_number := some (pyStrip c), raw_comment := c })
    ∧ (∀ c : PyStr,
        lazyScan chkNumbered (pyStrip c) = none →
        lazyScan chkFaDate (pyStrip c) = none →
        lazyScan chkFaSimple (pyStrip c) = none →
        lazyScan chkUnk (pyStrip c) = none →
        chkLegacy (pyStrip c) = none →
        (pyStrip c = [] ∨ startsWithCombine (pyStrip c) = true) →
        parse c = { raw_comment := c }) := by
  refine ⟨fun c => ?_, rfl, fun c h1 h2 h3 h4 h5 h6 h7 => ?_, fun c h1 h2 h3 h4 h5 h6 => ?_⟩
  · unfold parse
    split
    · intro h; simp at h
    · split
      · intro _; exact ⟨rfl, rfl⟩
      · split
        · intro _; exact ⟨rfl, rfl⟩
        · split
          · intro _; exact ⟨rfl, rfl⟩
          · split
            · intro _; exact ⟨rfl, rfl⟩
            · split
              · intro _; exact ⟨rfl, rfl⟩
              · split
                · intro h; simp at h
                · intro h; simp at h
  · have hc : c ≠ [] := by
      intro he
      exact h6 (by simp [he, pyStrip])
    unfold parse
    rw [if_neg hc]
    simp only [h1, h2, h3, h4, h5]
    rw [if_pos ⟨h6, by simp [h7]⟩]
  · by_cases hc : c = []
    · simp [parse, hc]
    · unfold parse
      rw [if_neg hc]
      simp only [h1, h2, h3, h4, h5]
      rw [if_neg (by
        rcases h6 with h6 | h6
        · intro hcontra; exact hcontra.1 h6
        · intro hcontra; exact hcontra.2 (by simp [h6]))]

/-! ## Character facts -/

theorem char_digit_toNat {c : Char} (h : c.isDigit = true) : 48 ≤ c.toNat ∧ c.toNat ≤ 57 := by
  simp only [Char.isDigit, ge_iff_le, Bool.and_eq_true, decide_eq_true_eq] at h
  exact ⟨h.1, h.2⟩

theorem toUpper_digit {c : Char} (h : c.isDigit = true) : c.toUpper = c := by
  have h2 := char_digit_toNat h
  simp only [Char.toUpper]
  rw [if_neg (by omega)]

theorem digit_ne_of_not_digit {c x : Char} (h : c.isDigit = true) (hx : x.isDigit = false) :
    c ≠ x := by
  intro he
  rw [he, hx] at h
  exact Bool.noConfusion h

theorem pyWs_digit {c : Char} (h : c.isDigit = true) : pyWs c = false := by
  have h2 := char_digit_toNat h
  have hs : (c == ' ') = false := by
    rw [beq_eq_false_iff_ne]
    exact digit_ne_of_not_digit h (by decide)
  simp only [pyWs, hs, Bool.or_false, Bool.and_eq_false_iff, decide_eq_false_iff_not]
  omega

theorem isNumCode_digit_left {c : Char} (u : Char) (h : c.isDigit = true) :
    isNumCode c.toUpper u = false := by
  rw [toUpper_digit h]
  have hC : (c == 'C') = false := by
    rw [beq_eq_false_iff_ne]; exact digit_ne_of_not_digit h (by decide)
  have hF : (c == 'F') = false := by
    rw [beq_eq_false_iff_ne]; exact digit_ne_of_not_digit h (by decide)
  have hD : (c == 'D') = false := by
    rw [beq_eq_false_iff_ne]; exact digit_ne_of_not_digit h (by decide)
  simp [isNumCode, hC, hF, hD]

/-! ## Pattern-interaction lemmas for `_FA_`-shaped comments -/

theorem chkNumbered_nil_eq : chkNumbered [] = none := rfl

theorem chkNumbered_cons_underscore (c1 c2 : Char) (w : PyStr) :
    chkNumbered ('_' :: c1 :: c2 :: w)
      = if isNumCode c1.toUpper c2.toUpper = true ∧ w ≠ [] ∧ w.all Char.isDigit = true then
          some ([c1.toUpper, c2.toUpper], digitsVal w)
        else none := rfl

theorem chkNumbered_ne_underscore {x : Char} (l : PyStr) (hx : x ≠ '_') :
    chkNumbered (x :: l) = none := by
  unfold chkNumbered
  split
  · next heq => exact absurd (List.head_eq_of_cons_eq heq.symm) (Ne.symm hx)
  · rfl

theorem chkNumbered_all_digits_false {c1 c2 : Char} {w : PyStr}
    (hw : w.all Char.isDigit = false) : chkNumbered ('_' :: c1 :: c2 :: w) = none := by
  rw [chkNumbered_cons_underscore, if_neg]
  intro hcontra
  rw [hw] at hcontra
  exact Bool.noConfusion hcontra.2.2

theorem not_all_digits_of_underscore {w : PyStr} (hmem : '_' ∈ w) :
    w.all Char.isDigit = false := by
  rw [Bool.eq_false_iff]
  intro hall
  rw [List.all_eq_true] at hall
  exact Bool.noConfusion (hall '_' hmem)

theorem chkNumbered_fa_none (v rest : PyStr) :
    chkNumbered (v ++ '_' :: 'F' :: 'A' :: '_' :: rest) = none := by
  match v with
  | [] =>
    rw [List.nil_append, chkNumbered_cons_underscore, if_neg]
    rintro ⟨h1, -⟩
    exact absurd h1 (by decide)
  | [x] =>
    by_cases hx : x = '_'
    · subst hx
      rw [show (['_'] ++ '_' :: 'F' :: 'A' :: '_' :: rest : PyStr)
            = '_' :: '_' :: 'F' :: ('A' :: '_' :: rest) from rfl]
      rw [chkNumbered_cons_underscore, if_neg]
      rintro ⟨h1, -⟩
      exact absurd h1 (by decide)
    · exact chkNumbered_ne_underscore _ hx
  | [x, y] =>
    by_cases hx : x = '_'
    · subst hx
      rw [show (['_', y] ++ '_' :: 'F' :: 'A' :: '_' :: rest : PyStr)
            = '_' :: y :: '_' :: ('F' :: 'A' :: '_' :: rest) from rfl]
      rw [chkNumbered_cons_underscore, if_neg]
      rintro ⟨h1, -⟩
      rw [show Char.toUpper ('_' : Char) = '_' from by decide] at h1
      simp only [isNumCode, show (('_' : Char) == 'H') = false from by decide,
        show (('_' : Char) == 'D') = false from by decide, Bool.and_false, Bool.or_self,
        Bool.or_false] at h1
      exact Bool.noConfusion h1
    · exact chkNumbered_ne_underscore _ hx
  | x :: y :: z :: w =>
    by_cases hx : x = '_'
    · subst hx
      have hdig : ((w ++ '_' :: 'F' :: 'A' :: '_' :: rest) : PyStr).all Char.isDigit = false :=
        not_all_digits_of_underscore (by simp)
      simpa using chkNumbered_all_digits_false hdig
    · exact chkNumbered_ne_underscore _ hx

theorem chkFaDate_length {r : PyStr} {b : PyStr} (h : chkFaDate r = some b) :
    r.length = 10 := by
  unfold chkFaDate at h
  split at h
  · rename_i f a ds
    split_ifs at h with hcond
    · simp [hcond.2.2.1]
  · exact Option.noConfusion h

theorem chkFaDate_cons (f a : Char) (ds : PyStr) :
    chkFaDate ('_' :: f :: a :: '_' :: ds)
      = if f.toUpper = 'F' ∧ a.toUpper = 'A' ∧ ds.length = 6 ∧ ds.all Char.isDigit = true then
          some ds
        else none := rfl

theorem chkFaDate_exact (e1 e2 e3 e4 e5 e6 : Char)
    (hd : ([e1, e2, e3, e4, e5, e6] : PyStr).all Char.isDigit = true) :
    chkFaDate ('_' :: 'F' :: 'A' :: '_' :: [e1, e2, e3, e4, e5, e6])
      = some [e1, e2, e3, e4, e5, e6] := by
  rw [chkFaDate_cons, if_pos ⟨by decide, by decide, rfl, hd⟩]

/-! ## Lazy-scan lemmas -/

theorem lazyScan_cons {β : Type} (check : PyStr → Option β) (c : Char) (t : PyStr) :
    lazyScan check (c :: t)
      = if c = '\n' then none
        else
          match check t with
          | some b => some ([c], b)
          | none =>
            match lazyScan check t with
            | some (acc, b) => some (c :: acc, b)
            | none => none := rfl

theorem lazyScan_eq_none {β : Type} (check : PyStr → Option β) :
    ∀ s : PyStr, (∀ k : Nat, check (s.drop (k + 1)) = none) → lazyScan check s = none := by
  intro s
  induction s with
  | nil => intro _; rfl
  | cons c t ih =>
    intro h
    rw [lazyScan_cons]
    by_cases hc : c = '\n'
    · rw [if_pos hc]
    · rw [if_neg hc]
      have h0 : check t = none := by
        have := h 0
        simpa using this
      have ht : lazyScan check t = none :=
        ih (fun k => by have := h (k + 1); rwa [List.drop_succ_cons] at this)
      rw [h0, ht]

theorem lazyScan_eq_some {β : Type} (check : PyStr → Option β) (b : β) :
    ∀ (acc0 rest0 : PyStr), acc0 ≠ [] → (∀ c ∈ acc0, c ≠ '\n') →
      check rest0 = some b →
      (∀ k, 1 ≤ k → k < acc0.length → check ((acc0 ++ rest0).drop k) = none) →
      lazyScan check (acc0 ++ rest0) = some (acc0, b) := by
  intro acc0
  induction acc0 with
  | nil => intro rest0 h; exact absurd rfl h
  | cons c cs ih =>
    intro rest0 _ hn hc hk
    by_cases hcs : cs = []
    · subst hcs
      show lazyScan check (c :: rest0) = some ([c], b)
      rw [lazyScan_cons, if_neg (hn c (List.mem_cons_self c [])), hc]
    · show lazyScan check (c :: (cs ++ rest0)) = some (c :: cs, b)
      rw [lazyScan_cons, if_neg (hn c (List.mem_cons_self c cs))]
      have h1 : check (cs ++ rest0) = none := by
        have hpos : 0 < cs.length := List.length_pos.2 hcs
        have := hk 1 (le_refl 1) (by simp; omega)
        simpa using this
      have hrec : lazyScan check (cs ++ rest0) = some (cs, b) := by
        apply ih rest0 hcs (fun x hx => hn x (List.mem_cons_of_mem _ hx)) hc
        intro k hk1 hk2
        have := hk (k + 1) (by omega) (by simp; omega)
        rwa [List.cons_append, List.drop_succ_cons] at this
      rw [h1, hrec]

/-! ## Decimal rendering facts -/

theorem digitChar_isDigit (k : Nat) : (digitChar k).isDigit = true := by
  match k with
  | 0 | 1 | 2 | 3 | 4 | 5 | 6 | 7 | 8 => rfl
  | n + 9 => rfl

theorem digitVal_digitChar {k : Nat} (h : k < 10) : digitVal (digitChar k) = k := by
  interval_cases k <;> decide

theorem digitChar_inj {a b : Nat} (ha : a < 10) (hb : b < 10)
    (h : digitChar a = digitChar b) : a = b := by
  have h1 := digitVal_digitChar ha
  rw [h, digitVal_digitChar hb] at h1
  omega

theorem digitsVal_append_singleton (xs : PyStr) (c : Char) :
    digitsVal (xs ++ [c]) = 10 * digitsVal xs + digitVal c := by
  simp [digitsVal, List.foldl_append]

theorem natDigitsGo_val : ∀ (f n : Nat), n ≤ f → digitsVal (natDigitsGo f n) = n := by
  intro f
  induction f with
  | zero =>
    intro n h
    interval_cases n
    decide
  | succ f ih =>
    intro n h
    unfold natDigitsGo
    by_cases h10 : n < 10
    · rw [if_pos h10]
      simp [digitsVal, digitVal_digitChar h10]
    · rw [if_neg h10]
      rw [digitsVal_append_singleton, ih (n / 10) (by omega),
        digitVal_digitChar (by omega : n % 10 < 10)]
      omega

theorem natDigits_val (n : Nat) : digitsVal (natDigits n) = n := natDigitsGo_val n n le_rfl

theorem natDigitsGo_ne_nil (f n : Nat) : natDigitsGo f n ≠ [] := by
  match f with
  | 0 => simp [natDigitsGo]
  | f + 1 =>
    unfold natDigitsGo
    split
    · simp
    · simp

theorem natDigits_ne_nil (n : Nat) : natDigits n ≠ [] := natDigitsGo_ne_nil n n

theorem natDigitsGo_all_digit : ∀ f n : Nat, (natDigitsGo f n).all Char.isDigit = true := by
  intro f
  induction f with
  | zero => intro n; simp [natDigitsGo, digitChar_isDigit]
  | succ f ih =>
    intro n
    unfold natDigitsGo
    split
    · simp [digitChar_isDigit]
    · simp [List.all_append, ih, digitChar_isDigit]

theorem natDigits_all_digit (n : Nat) : (natDigits n).all Char.isDigit = true :=
  natDigitsGo_all_digit n n

theorem trade_suffix_all_digit (tn : Option Nat) :
    (trade_suffix tn).all Char.isDigit = true := by
  match tn with
  | none => rfl
  | some n =>
    by_cases h : n = 0
    · subst h; rfl
    · show (if n ≠ 0 then natDigits n else []).all Char.isDigit = true
      rw [if_pos h]
      exact natDigits_all_digit n

theorem not_underscore_mem_of_all_digit {l : PyStr} (h : l.all Char.isDigit = true) :
    '_' ∉ l := by
  intro hm
  exact Bool.noConfusion (List.all_eq_true.1 h '_' hm)

theorem ddmmyy_eq (d : FarmDate) :
    ddmmyy d = [digitChar (d.day / 10 % 10), digitChar (d.day % 10),
      digitChar (d.month / 10 % 10), digitChar (d.month % 10),
      digitChar (d.year % 100 / 10 % 10), digitChar (d.year % 100 % 10)] := rfl

theorem ddmmyy_all_digit (d : FarmDate) : (ddmmyy d).all Char.isDigit = true := by
  rw [ddmmyy_eq]
  simp [digitChar_isDigit]

/-! ## Key-splitting lemmas -/

theorem pcValid_not_underscore {pc : PyStr} (h : pcValid pc) : '_' ∉ pc := by
  simp only [pcValid, phaseCodes, List.mem_cons, List.not_mem_nil, or_false] at h
  rcases h with rfl | rfl | rfl | rfl | rfl | rfl <;> decide

theorem pcValid_head {pc : PyStr} (h : pcValid pc) :
    ∃ c cs, pc = c :: cs ∧ c.isDigit = false := by
  simp only [pcValid, phaseCodes, List.mem_cons, List.not_mem_nil, or_false] at h
  rcases h with rfl | rfl | rfl | rfl | rfl | rfl
  · exact ⟨'C', _, rfl, by decide⟩
  · exact ⟨'F', _, rfl, by decide⟩
  · exact ⟨'D', _, rfl, by decide⟩
  · exact ⟨'F', _, rfl, by decide⟩
  · exact ⟨'U', _, rfl, by decide⟩
  · exact ⟨'L', _, rfl, by decide⟩

theorem date_suffix_shape (fd : Option FarmDate) :
    date_suffix fd = []
    ∨ ∃ w, date_suffix fd = '_' :: w ∧ w.all Char.isDigit = true ∧ w ≠ [] := by
  match fd with
  | none => exact Or.inl rfl
  | some d =>
    refine Or.inr ⟨ddmmyy d, rfl, ddmmyy_all_digit d, ?_⟩
    rw [ddmmyy_eq]
    simp

theorem underscore_split {u : PyStr} :
    ∀ {x y v : PyStr}, '_' ∉ u → u ++ v = x ++ '_' :: y →
      ∃ x2, x = u ++ x2 ∧ v = x2 ++ '_' :: y := by
  induction u with
  | nil =>
    intro x y v _ he
    exact ⟨x, rfl, by simpa using he⟩
  | cons c u' ih =>
    intro x y v hu he
    cases x with
    | nil =>
      obtain ⟨h1, -⟩ := List.cons.inj (by simpa using he)
      exact absurd (h1 ▸ List.mem_cons_self c u') (by simpa [h1] using hu)
    | cons cx x' =>
      obtain ⟨h1, h2⟩ := List.cons.inj (by simpa using he)
      subst h1
      have hu' : '_' ∉ u' := fun hm => hu (List.mem_cons_of_mem _ hm)
      obtain ⟨x2, hx2, hv⟩ := ih hu' h2
      exact ⟨x2, by rw [hx2]; rfl, hv⟩

theorem shapeR_split {pc ts dsfx x y : PyStr} (hpc : '_' ∉ pc) (hts : '_' ∉ ts)
    (hd : dsfx = [] ∨ ∃ w, dsfx = '_' :: w ∧ '_' ∉ w)
    (he : pc ++ ts ++ dsfx = x ++ '_' :: y) :
    x = pc ++ ts ∧ dsfx = '_' :: y := by
  have he1 : pc ++ (ts ++ dsfx) = x ++ '_' :: y := by simpa [List.append_assoc] using he
  obtain ⟨x2, hx, h2⟩ := underscore_split hpc he1
  obtain ⟨x3, hx3, h3⟩ := underscore_split hts h2
  rcases hd with hd | ⟨w, hw, hww⟩
  · rw [hd] at h3
    exact absurd h3.symm (by simp)
  · rw [hw] at h3
    cases x3 with
    | nil =>
      have hy : w = y := by simpa using h3
      constructor
      · rw [hx, hx3]
        simp
      · rw [hw, hy]
    | cons c3 x3' =>
      obtain ⟨-, hw2⟩ := List.cons.inj (by simpa using h3)
      have : '_' ∈ w := by
        rw [hw2]
        exact List.mem_append_right _ (List.mem_cons_self _ _)
      exact absurd this hww

/-- The body after the first separator of a `get_key` cannot itself contain
a full `'_'`-separated key body: the part after the inner separator would
have to be all digits, while a phase code starts with a letter. -/
theorem no_key_extension {pc ts dsfx x pc2 ts2 dsfx2 : PyStr}
    (hpc : '_' ∉ pc) (hts : ts.all Char.isDigit = true)
    (hd : dsfx = [] ∨ ∃ w, dsfx = '_' :: w ∧ w.all Char.isDigit = true ∧ w ≠ [])
    (hpc2 : ∃ c cs, pc2 = c :: cs ∧ c.isDigit = false)
    (he : pc ++ ts ++ dsfx = x ++ '_' :: (pc2 ++ ts2 ++ dsfx2)) : False := by
  have hd' : dsfx = [] ∨ ∃ w, dsfx = '_' :: w ∧ '_' ∉ w := by
    rcases hd with h | ⟨w, hw, hwd, -⟩
    · exact Or.inl h
    · exact Or.inr ⟨w, hw, not_underscore_mem_of_all_digit hwd⟩
  obtain ⟨-, hdf⟩ := shapeR_split hpc (not_underscore_mem_of_all_digit hts) hd' he
  rcases hd with h | ⟨w, hw, hwd, -⟩
  · rw [h] at hdf
    exact List.noConfusion hdf
  · rw [hw] at hdf
    obtain ⟨-, hwe⟩ := List.cons.inj hdf
    obtain ⟨ch, cs, hpc2e, hchd⟩ := hpc2
    have hch : ch.isDigit = true := by
      refine List.all_eq_true.1 hwd ch ?_
      rw [hwe, hpc2e]
      simp
    rw [hchd] at hch
    exact Bool.noConfusion hch

theorem key_split {pc1 ts1 df1 pc2 ts2 df2 : PyStr} :
    ∀ {acc1 acc2 : PyStr},
      '_' ∉ pc1 → (∃ c cs, pc1 = c :: cs ∧ c.isDigit = false) →
      ts1.all Char.isDigit = true →
      (df1 = [] ∨ ∃ w, df1 = '_' :: w ∧ w.all Char.isDigit = true ∧ w ≠ []) →
      '_' ∉ pc2 → (∃ c cs, pc2 = c :: cs ∧ c.isDigit = false) →
      ts2.all Char.isDigit = true →
      (df2 = [] ∨ ∃ w, df2 = '_' :: w ∧ w.all Char.isDigit = true ∧ w ≠ []) →
      acc1 ++ '_' :: (pc1 ++ ts1 ++ df1) = acc2 ++ '_' :: (pc2 ++ ts2 ++ df2) →
      acc1 = acc2 ∧ pc1 ++ ts1 ++ df1 = pc2 ++ ts2 ++ df2 := by
  intro acc1
  induction acc1 with
  | nil =>
    intro acc2 hp1 hh1 ht1 hd1 hp2 hh2 ht2 hd2 he
    cases acc2 with
    | nil =>
      rw [List.nil_append, List.nil_append] at he
      exact ⟨rfl, (List.cons.inj he).2⟩
    | cons c a2' =>
      rw [List.nil_append, List.cons_append] at he
      obtain ⟨hc, h2⟩ := List.cons.inj he
      exact (no_key_extension hp1 ht1 hd1 hh2 h2).elim
  | cons c a1' ih =>
    intro acc2 hp1 hh1 ht1 hd1 hp2 hh2 ht2 hd2 he
    cases acc2 with
    | nil =>
      rw [List.cons_append, List.nil_append] at he
      obtain ⟨hc, h2⟩ := List.cons.inj he
      exact (no_key_extension hp2 ht2 hd2 hh1 h2.symm).elim
    | cons c2 a2' =>
      rw [List.cons_append, List.cons_append] at he
      obtain ⟨hc, h2⟩ := List.cons.inj he
      subst hc
      obtain ⟨hacc, hr⟩ := ih hp1 hh1 ht1 hd1 hp2 hh2 ht2 hd2 h2
      exact ⟨by rw [hacc], hr⟩

theorem code_eq_of_append {pc1 pc2 s1 s2 : PyStr} (h1 : pcValid pc1) (h2 : pcValid pc2)
    (he : pc1 ++ s1 = pc2 ++ s2) : pc1 = pc2 ∧ s1 = s2 := by
  have hkey : ∀ p ∈ phaseCodes, ∀ q ∈ phaseCodes, p <+: q → p = q := by decide
  have hpre : pc1 <+: pc2 ∨ pc2 <+: pc1 := by
    rcases List.append_eq_append_iff.1 he with ⟨a', ha, -⟩ | ⟨c', hc, -⟩
    · exact Or.inl ⟨a', ha.symm⟩
    · exact Or.inr ⟨c', hc.symm⟩
  have hpc : pc1 = pc2 := by
    rcases hpre with hp | hp
    · exact hkey pc1 h1 pc2 h2 hp
    · exact (hkey pc2 h2 pc1 h1 hp).symm
  subst hpc
  exact ⟨rfl, List.append_cancel_left he⟩

theorem ts_df_split {ts1 df1 ts2 df2 : PyStr}
    (ht1 : ts1.all Char.isDigit = true) (ht2 : ts2.all Char.isDigit = true)
    (hd1 : df1 = [] ∨ ∃ w, df1 = '_' :: w ∧ w.all Char.isDigit = true ∧ w ≠ [])
    (hd2 : df2 = [] ∨ ∃ w, df2 = '_' :: w ∧ w.all Char.isDigit = true ∧ w ≠ [])
    (he : ts1 ++ df1 = ts2 ++ df2) : ts1 = ts2 ∧ df1 = df2 := by
  rcases List.append_eq_append_iff.1 he with ⟨a', ha, hb⟩ | ⟨c', hc, hb⟩
  · cases a' with
    | nil => exact ⟨by simp [ha], by simpa using hb⟩
    | cons ca a'' =>
      have hca : ca.isDigit = true := by
        refine List.all_eq_true.1 ht2 ca ?_
        rw [ha]
        simp
      rcases hd1 with h | ⟨w, hw, -, -⟩
      · rw [h] at hb
        exact absurd hb.symm (by simp)
      · rw [hw] at hb
        obtain ⟨hcc, -⟩ := List.cons.inj (by simpa using hb)
        rw [← hcc] at hca
        exact absurd hca (by decide)
  · cases c' with
    | nil =>
      have hb2 : df2 = df1 := by simpa using hb
      exact ⟨by simpa using hc, hb2.symm⟩
    | cons ca c'' =>
      have hca : ca.isDigit = true := by
        refine List.all_eq_true.1 ht1 ca ?_
        rw [hc]
        simp
      rcases hd2 with h | ⟨w, hw, -, -⟩
      · rw [h] at hb
        exact absurd hb.symm (by simp)
      · rw [hw] at hb
        obtain ⟨hcc, -⟩ := List.cons.inj (by simpa using hb)
        rw [← hcc] at hca
        exact absurd hca (by decide)

theorem trade_suffix_inj {t1 t2 : Option Nat} (he : trade_suffix t1 = trade_suffix t2) :
    normTn t1 = normTn t2 := by
  match t1, t2 with
  | none, none => rfl
  | none, some 0 => rfl
  | some 0, none => rfl
  | some 0, some 0 => rfl
  | none, some (m + 1) => exact absurd he.symm (natDigits_ne_nil (m + 1))
  | some 0, some (m + 1) => exact absurd he.symm (natDigits_ne_nil (m + 1))
  | some (m + 1), none => exact absurd he (natDigits_ne_nil (m + 1))
  | some (m + 1), some 0 => exact absurd he (natDigits_ne_nil (m + 1))
  | some (m + 1), some (k + 1) =>
    have hv := natDigits_val (m + 1)
    rw [show trade_suffix (some (m + 1)) = natDigits (m + 1) from rfl,
      show trade_suffix (some (k + 1)) = natDigits (k + 1) from rfl] at he
    rw [he, natDigits_val] at hv
    simp only [normTn]
    rw [hv]

theorem date_suffix_inj {f1 f2 : Option FarmDate} (h1 : dateOk f1) (h2 : dateOk f2)
    (he : date_suffix f1 = date_suffix f2) : f1 = f2 := by
  match f1, f2 with
  | none, none => rfl
  | none, some d => exact List.noConfusion he
  | some d, none => exact List.noConfusion he
  | some d1, some d2 =>
    simp only [date_suffix] at he
    obtain ⟨-, h6⟩ := List.cons.inj he
    rw [ddmmyy_eq, ddmmyy_eq] at h6
    simp only [List.cons.injEq, and_true] at h6
    obtain ⟨q1, q2, q3, q4, q5, q6⟩ := h6
    obtain ⟨hda, hmo, hyl, hyu⟩ := h1
    obtain ⟨hdb, hmb, hybl, hybu⟩ := h2
    have e1 := digitChar_inj (Nat.mod_lt _ (by omega)) (Nat.mod_lt _ (by omega)) q1
    have e2 := digitChar_inj (Nat.mod_lt _ (by omega)) (Nat.mod_lt _ (by omega)) q2
    have e3 := digitChar_inj (Nat.mod_lt _ (by omega)) (Nat.mod_lt _ (by omega)) q3
    have e4 := digitChar_inj (Nat.mod_lt _ (by omega)) (Nat.mod_lt _ (by omega)) q4
    have e5 := digitChar_inj (Nat.mod_lt _ (by omega)) (Nat.mod_lt _ (by omega)) q5
    have e6 := digitChar_inj (Nat.mod_lt _ (by omega)) (Nat.mod_lt _ (by omega)) q6
    have hday : d1.day = d2.day := by omega
    have hmon : d1.month = d2.month := by omega
    have hyear : d1.year = d2.year := by omega
    cases d1
    cases d2
    simp only [Option.some.injEq, FarmDate.mk.injEq]
    exact ⟨hday, hmon, hyear⟩

/-! ## Key serialization -/

theorem C3_key_serialization_counterexample :
    (AggregatedTrade.mk "A".data Phase.FUNDED "FD".data (some 0) none 0 0 0 0 0 []).get_key
      = "A_FD".data
    ∧ ("A_FD".data : PyStr) ≠ "A_FD0".data := by
  decide

/-- C3 (amended): the serialized key is
`{account}_{phase_code}{trade_number if nonzero}{_ddmmyy if farming_date}` —
a trade number of `0` is rendered like an absent one — and keys are
collision-free up to that rendering: two rollups with canonical phase codes
and `strptime`-representable dates that produce the same key agree on
account, phase code, farming date and zero-normalized trade number. -/
theorem C3_key_serialization_amended :
    (∀ a : AggregatedTrade,
        a.get_key = a.account_number ++ '_' :: (a.phase_code
          ++ trade_suffix a.trade_number ++ date_suffix a.farming_date))
    ∧ ∀ a1 a2 : AggregatedTrade,
        pcValid a1.phase_code → pcValid a2.phase_code →
        dateOk a1.farming_date → dateOk a2.farming_date →
        a1.get_key = a2.get_key →
        a1.account_number = a2.account_number
        ∧ a1.phase_code = a2.phase_code
        ∧ normTn a1.trade_number = normTn a2.trade_number
        ∧ a1.farming_date = a2.farming_date := by
  refine ⟨fun a => rfl, fun a1 a2 hp1 hp2 hd1 hd2 he => ?_⟩
  unfold AggregatedTrade.get_key at he
  obtain ⟨hacc, hr⟩ := key_split (pcValid_not_underscore hp1) (pcValid_head hp1)
    (trade_suffix_all_digit _) (date_suffix_shape _)
    (pcValid_not_underscore hp2) (pcValid_head hp2)
    (trade_suffix_all_digit _) (date_suffix_shape _) he
  obtain ⟨hpc, hrest⟩ := code_eq_of_append hp1 hp2 (by simpa [List.append_assoc] using hr)
  obtain ⟨hts, hdf⟩ := ts_df_split (trade_suffix_all_digit _) (trade_suffix_all_digit _)
    (date_suffix_shape _) (date_suffix_shape _) hrest
  exact ⟨hacc, hpc, trade_suffix_inj hts, date_suffix_inj hd1 hd2 hdf⟩

theorem C3_key_serialization_witness :
    ("A".data : PyStr) = "A".data
    ∧ ("CH".data : PyStr) = "CH".data
    ∧ normTn (some 1) = normTn (some 1)
    ∧ (none : Option FarmDate) = none := by
  exact (C3_key_serialization_amended).2
    (AggregatedTrade.mk "A".data Phase.CHALLENGE "CH".data (some 1) none 0 0 0 0 0 [])
    (AggregatedTrade.mk "A".data Phase.CHALLENGE "CH".data (some 1) none 1 0 0 0 1 [])
    (show pcValid "CH".data by unfold pcValid phaseCodes; decide)
    (show pcValid "CH".data by unfold pcValid phaseCodes; decide)
    trivial trivial (by decide)

/-! ## Farming-with-date comments -/

theorem exists_six {ds : PyStr} (h : ds.length = 6) :
    ∃ e1 e2 e3 e4 e5 e6 : Char, ds = [e1, e2, e3, e4, e5, e6] := by
  rcases ds with _ | ⟨a1, ds⟩
  · simp at h
  rcases ds with _ | ⟨a2, ds⟩
  · simp at h
  rcases ds with _ | ⟨a3, ds⟩
  · simp at h
  rcases ds with _ | ⟨a4, ds⟩
  · simp at h
  rcases ds with _ | ⟨a5, ds⟩
  · simp at h
  rcases ds with _ | ⟨a6, ds⟩
  · simp at h
  rcases ds with _ | ⟨a7, ds⟩
  · exact ⟨a1, a2, a3, a4, a5, a6, rfl⟩
  · simp at h

theorem pyStrip_eq_self {a z : Char} (mid : PyStr) (ha : pyWs a = false)
    (hz : pyWs z = false) : pyStrip (a :: (mid ++ [z])) = a :: (mid ++ [z]) := by
  unfold pyStrip
  rw [List.dropWhile_cons]
  simp only [ha, Bool.false_eq_true, if_false]
  rw [show (a :: (mid ++ [z])).reverse = z :: (mid.reverse ++ [a]) from by simp]
  rw [List.dropWhile_cons]
  simp only [hz, Bool.false_eq_true, if_false]
  simp

theorem chkNumbered_fa_tail_drop (e1 e2 e3 e4 e5 e6 : Char)
    (hd : ([e1, e2, e3, e4, e5, e6] : PyStr).all Char.isDigit = true) :
    ∀ j : Nat,
      chkNumbered (('_' :: 'F' :: 'A' :: '_' :: [e1, e2, e3, e4, e5, e6] : PyStr).drop j)
        = none := by
  obtain ⟨hd1, hd2, hd3, hd4, hd5, hd6⟩ :
      e1.isDigit = true ∧ e2.isDigit = true ∧ e3.isDigit = true ∧ e4.isDigit = true
      ∧ e5.isDigit = true ∧ e6.isDigit = true := by simpa using hd
  intro j
  match j with
  | 0 =>
    rw [List.drop_zero, chkNumbered_cons_underscore, if_neg]
    rintro ⟨h1, -⟩
    exact absurd h1 (by decide)
  | 1 => exact chkNumbered_ne_underscore _ (by decide)
  | 2 => exact chkNumbered_ne_underscore _ (by decide)
  | 3 =>
    show chkNumbered ('_' :: e1 :: e2 :: [e3, e4, e5, e6]) = none
    rw [chkNumbered_cons_underscore, if_neg]
    rintro ⟨h1, -⟩
    rw [isNumCode_digit_left _ hd1] at h1
    exact Bool.noConfusion h1
  | 4 => exact chkNumbered_ne_underscore _ (digit_ne_of_not_digit hd1 (by decide))
  | 5 => exact chkNumbered_ne_underscore _ (digit_ne_of_not_digit hd2 (by decide))
  | 6 => exact chkNumbered_ne_underscore _ (digit_ne_of_not_digit hd3 (by decide))
  | 7 => exact chkNumbered_ne_underscore _ (digit_ne_of_not_digit hd4 (by decide))
  | 8 => exact chkNumbered_ne_underscore _ (digit_ne_of_not_digit hd5 (by decide))
  | 9 => exact chkNumbered_ne_underscore _ (digit_ne_of_not_digit hd6 (by decide))
  | n + 10 =>
    rw [List.drop_eq_nil_of_le (by simp)]
    rfl

theorem no_numbered_match (acc0 : PyStr) (e1 e2 e3 e4 e5 e6 : Char)
    (hd : ([e1, e2, e3, e4, e5, e6] : PyStr).all Char.isDigit = true) :
    lazyScan chkNumbered (acc0 ++ '_' :: 'F' :: 'A' :: '_' :: [e1, e2, e3, e4, e5, e6])
      = none := by
  apply lazyScan_eq_none
  intro k
  by_cases hk : k + 1 ≤ acc0.length
  · rw [List.drop_append_of_le_length hk]
    exact chkNumbered_fa_none _ _
  · rw [show k + 1 = acc0.length + (k + 1 - acc0.length) from by omega, List.drop_append]
    exact chkNumbered_fa_tail_drop e1 e2 e3 e4 e5 e6 hd _

theorem fa_scan_some (acc0 : PyStr) (e1 e2 e3 e4 e5 e6 : Char) (h0 : acc0 ≠ [])
    (hn : ∀ c ∈ acc0, c ≠ '\n')
    (hd : ([e1, e2, e3, e4, e5, e6] : PyStr).all Char.isDigit = true) :
    lazyScan chkFaDate (acc0 ++ '_' :: 'F' :: 'A' :: '_' :: [e1, e2, e3, e4, e5, e6])
      = some (acc0, [e1, e2, e3, e4, e5, e6]) := by
  apply lazyScan_eq_some chkFaDate _ acc0 _ h0 hn (chkFaDate_exact e1 e2 e3 e4 e5 e6 hd)
  intro k hk1 hk2
  cases hc : chkFaDate ((acc0 ++ '_' :: 'F' :: 'A' :: '_' :: [e1, e2, e3, e4, e5, e6]).drop k)
    with
  | none => rfl
  | some bb =>
    have hlen := chkFaDate_length hc
    rw [List.length_drop, List.length_append] at hlen
    simp at hlen
    omega

/-- C7: a comment of the form `{account}_FA_{six digits}` — the account
nonempty, newline-free and not starting with whitespace — always parses as a
valid Farming identity; its `farming_date` equals the `strptime("%d%m%y")`
result of the six digits, which is the date itself when the digits form a
valid day/month/two-digit-year and `none` when date parsing fails, the parse
succeeding either way. -/
theorem C7_farming_date_parse :
    ∀ (a : Char) (acc ds : PyStr),
      pyWs a = false →
      (∀ c ∈ a :: acc, c ≠ '\n') →
      ds.length = 6 →
      ds.all Char.isDigit = true →
      (parse ((a :: acc) ++ '_' :: 'F' :: 'A' :: '_' :: ds)).is_valid = true
      ∧ (parse ((a :: acc) ++ '_' :: 'F' :: 'A' :: '_' :: ds)).phase = some Phase.FARMING
      ∧ (parse ((a :: acc) ++ '_' :: 'F' :: 'A' :: '_' :: ds)).phase_code = some "FA".data
      ∧ (parse ((a :: acc) ++ '_' :: 'F' :: 'A' :: '_' :: ds)).account_number = some (a :: acc)
      ∧ (parse ((a :: acc) ++ '_' :: 'F' :: 'A' :: '_' :: ds)).farming_date
          = strptime_ddmmyy ds := by
  intro a acc ds ha hn hlen hdig
  obtain ⟨e1, e2, e3, e4, e5, e6, rfl⟩ := exists_six hlen
  have he6 : e6.isDigit = true := by
    have h6 := hdig
    simp only [List.all_cons, List.all_nil, Bool.and_true, Bool.and_eq_true] at h6
    exact h6.2.2.2.2.2
  have hne : (a :: acc) ++ '_' :: 'F' :: 'A' :: '_' :: [e1, e2, e3, e4, e5, e6] ≠ ([] : PyStr) :=
    by simp
  have hsh : (a :: acc) ++ '_' :: 'F' :: 'A' :: '_' :: [e1, e2, e3, e4, e5, e6]
      = a :: ((acc ++ ['_', 'F', 'A', '_', e1, e2, e3, e4, e5]) ++ [e6]) := by simp
  have hstrip : pyStrip ((a :: acc) ++ '_' :: 'F' :: 'A' :: '_' :: [e1, e2, e3, e4, e5, e6])
      = (a :: acc) ++ '_' :: 'F' :: 'A' :: '_' :: [e1, e2, e3, e4, e5, e6] := by
    rw [hsh]
    exact pyStrip_eq_self _ ha (pyWs_digit he6)
  unfold parse
  rw [if_neg hne, hstrip]
  rw [no_numbered_match _ _ _ _ _ _ _ hdig,
    fa_scan_some _ _ _ _ _ _ _ ((List.cons_ne_nil a acc)) hn hdig]
  exact ⟨rfl, rfl, rfl, rfl, rfl⟩

theorem C7_farming_date_parse_witness :
    (parse "ACC_FA_210126".data).is_valid = true
    ∧ (parse "ACC_FA_210126".data).farming_date = some ⟨21, 1, 2026⟩
    ∧ (parse "ACC_FA_690126".data).is_valid = true
    ∧ (parse "ACC_FA_690126".data).farming_date = none := by
  have h1 := C7_farming_date_parse 'A' ['C', 'C'] "210126".data (by decide) (by decide)
    (by decide) (by decide)
  have h2 := C7_farming_date_parse 'A' ['C', 'C'] "690126".data (by decide) (by decide)
    (by decide) (by decide)
  exact ⟨h1.1, h1.2.2.2.2.trans (by decide), h2.1, h2.2.2.2.2.trans (by decide)⟩

/-! ## Aggregation as a commutative fold -/

theorem contribFold_nil (o : Option AggregatedTrade) : contribFold o [] = o := by
  cases o <;> rfl

theorem alookup_foldl_add_deal (l : List Deal) :
    ∀ (st : AggState) (k : PyStr),
      alookup k (List.foldl add_deal st l).aggregations
        = contribFold (alookup k st.aggregations)
            (l.filter (fun d => decide (dealKey d = some k))) := by
  induction l with
  | nil => intro st k; simp [contribFold_nil]
  | cons d t ih =>
    intro st k
    rw [List.foldl_cons, ih, List.filter_cons]
    by_cases hk : dealKey d = some k
    · rw [if_pos (by simpa using hk)]
      rw [add_deal_matched_aggregations hk, alookup_insertOrReplace_self]
      cases hl : alookup k st.aggregations with
      | none => rfl
      | some a => rfl
    · rw [if_neg (by simpa using hk)]
      cases hdk : dealKey d with
      | none => rw [add_deal_skipped_aggregations hdk]
      | some k2 =>
        have hne : k2 ≠ k := fun he => hk (by rw [hdk, he])
        rw [add_deal_matched_aggregations hdk, alookup_insertOrReplace_ne _ hne]

theorem foldl_addContrib_fields :
    ∀ (ds : List Deal) (a : AggregatedTrade),
      (ds.foldl addContrib a).total_profit = a.total_profit + moneySum Deal.profit ds
      ∧ (ds.foldl addContrib a).total_commission
          = a.total_commission + moneySum Deal.commission ds
      ∧ (ds.foldl addContrib a).total_swap = a.total_swap + moneySum Deal.swap ds
      ∧ (ds.foldl addContrib a).total_fee = a.total_fee + moneySum Deal.fee ds
      ∧ (ds.foldl addContrib a).deal_count = a.deal_count + ds.length
      ∧ (ds.foldl addContrib a).deals = a.deals ++ ds := by
  intro ds
  induction ds with
  | nil => intro a; simp [moneySum]
  | cons d t ih =>
    intro a
    rw [List.foldl_cons]
    obtain ⟨h1, h2, h3, h4, h5, h6⟩ := ih (addContrib a d)
    refine ⟨?_, ?_, ?_, ?_, ?_, ?_⟩
    · rw [h1]; simp [addContrib, moneySum]; ring
    · rw [h2]; simp [addContrib, moneySum]; ring
    · rw [h3]; simp [addContrib, moneySum]; ring
    · rw [h4]; simp [addContrib, moneySum]; ring
    · rw [h5]; simp [addContrib]; omega
    · rw [h6]; simp [addContrib]

theorem contribFold_some_fields (d : Deal) (ds : List Deal) (a : AggregatedTrade)
    (h : contribFold none (d :: ds) = some a) :
    a.total_profit = moneySum Deal.profit (d :: ds)
    ∧ a.total_commission = moneySum Deal.commission (d :: ds)
    ∧ a.total_swap = moneySum Deal.swap (d :: ds)
    ∧ a.total_fee = moneySum Deal.fee (d :: ds)
    ∧ a.deal_count = (d :: ds).length
    ∧ a.deals = d :: ds := by
  have ha : a = ds.foldl addContrib (addContrib (mkBase (parse d.comment)) d) := by
    have := h.symm
    simpa [contribFold] using this
  subst ha
  obtain ⟨h1, h2, h3, h4, h5, h6⟩ :=
    foldl_addContrib_fields ds (addContrib (mkBase (parse d.comment)) d)
  refine ⟨?_, ?_, ?_, ?_, ?_, ?_⟩
  · rw [h1]; simp [addContrib, mkBase, moneySum]
  · rw [h2]; simp [addContrib, mkBase, moneySum]
  · rw [h3]; simp [addContrib, mkBase, moneySum]
  · rw [h4]; simp [addContrib, mkBase, moneySum]
  · rw [h5]; simp [addContrib, mkBase]; omega
  · rw [h6]; simp [addContrib, mkBase]

/-- C4: aggregation is a commutative fold.  For every permutation of a deal
list, the resulting rollups agree key by key: the same keys are present, and
under each key the four totals and the deal count coincide, while the audit
`deals` lists are permutations of each other (their order is the only
input-order-dependent data). -/
theorem C4_aggregation_commutative :
    ∀ (l1 l2 : List Deal), l1.Perm l2 → ∀ k : PyStr,
      ((alookup k (process_deals l1).aggregations).isSome
        ↔ (alookup k (process_deals l2).aggregations).isSome)
      ∧ (∀ a1 a2, alookup k (process_deals l1).aggregations = some a1 →
          alookup k (process_deals l2).aggregations = some a2 →
          a1.total_profit = a2.total_profit
          ∧ a1.total_commission = a2.total_commission
          ∧ a1.total_swap = a2.total_swap
          ∧ a1.total_fee = a2.total_fee
          ∧ a1.deal_count = a2.deal_count
          ∧ a1.deals.Perm a2.deals) := by
  intro l1 l2 hp k
  have h1 : alookup k (process_deals l1).aggregations
      = contribFold none (l1.filter (fun d => decide (dealKey d = some k))) := by
    simpa [process_deals, alookup] using alookup_foldl_add_deal l1 {} k
  have h2 : alookup k (process_deals l2).aggregations
      = contribFold none (l2.filter (fun d => decide (dealKey d = some k))) := by
    simpa [process_deals, alookup] using alookup_foldl_add_deal l2 {} k
  have hfp := hp.filter (fun d => decide (dealKey d = some k))
  cases hf1 : l1.filter (fun d => decide (dealKey d = some k)) with
  | nil =>
    rw [hf1] at hfp
    have hf2 : l2.filter (fun d => decide (dealKey d = some k)) = [] := hfp.symm.eq_nil
    rw [h1, h2, hf1, hf2]
    exact ⟨Iff.rfl, fun a1 a2 ha1 _ => absurd ha1 (by simp [contribFold])⟩
  | cons d1 t1 =>
    rw [hf1] at hfp
    obtain ⟨d2, t2, hf2⟩ : ∃ d2 t2,
        l2.filter (fun d => decide (dealKey d = some k)) = d2 :: t2 := by
      cases hc : l2.filter (fun d => decide (dealKey d = some k)) with
      | nil => rw [hc] at hfp; exact absurd hfp.eq_nil (by simp)
      | cons x xs => exact ⟨x, xs, rfl⟩
    rw [hf2] at hfp
    rw [h1, h2, hf1, hf2]
    constructor
    · simp [contribFold]
    · intro a1 a2 ha1 ha2
      obtain ⟨p1, c1, s1, f1, n1, ds1⟩ := contribFold_some_fields d1 t1 a1 ha1
      obtain ⟨p2, c2, s2, f2, n2, ds2⟩ := contribFold_some_fields d2 t2 a2 ha2
      refine ⟨?_, ?_, ?_, ?_, ?_, ?_⟩
      · rw [p1, p2]; exact (hfp.map (fun d => moneyVal d.profit)).sum_eq
      · rw [c1, c2]; exact (hfp.map (fun d => moneyVal d.commission)).sum_eq
      · rw [s1, s2]; exact (hfp.map (fun d => moneyVal d.swap)).sum_eq
      · rw [f1, f2]; exact (hfp.map (fun d => moneyVal d.fee)).sum_eq
      · rw [n1, n2]; exact hfp.length_eq
      · rw [ds1, ds2]; exact hfp

theorem C4_aggregation_commutative_witness :
    (alookup "ACC_CH_1".data
        (process_deals
          [⟨"ACC_CH1".data, "SELL".data, some 150, some (-2), some 0, some 0⟩,
           ⟨"ACC_CH1".data, "BUY".data, some 75, some (-1), some (-1), some 0⟩]).aggregations).isSome
    ↔ (alookup "ACC_CH_1".data
        (process_deals
          [⟨"ACC_CH1".data, "BUY".data, some 75, some (-1), some (-1), some 0⟩,
           ⟨"ACC_CH1".data, "SELL".data, some 150, some (-2), some 0, some 0⟩]).aggregations).isSome := by
  exact (C4_aggregation_commutative _ _
    (List.Perm.swap ⟨"ACC_CH1".data, "BUY".data, some 75, some (-1), some (-1), some 0⟩
      ⟨"ACC_CH1".data, "SELL".data, some 150, some (-2), some 0, some 0⟩ [])
    "ACC_CH_1".data).1

theorem C9_parse_invariant_witness :
    parse "RandomComment".data
      = { account_number := some "RandomComment".data, raw_comment := "RandomComment".data } := by
  have h := (C9_parse_invariant_amended).2.2.1 "RandomComment".data (by decide) (by decide)
    (by decide) (by decide) (by decide) (by decide) (by decide)
  rw [show pyStrip "RandomComment".data = "RandomComment".data from by decide] at h
  exact h

end FuturesFeed
